import Mathlib

/-!
# Flow aggregation pipeline of `main.go`

A shallow embedding of the packet worker and of the coordinator loop of
`main.go`, followed by the properties of the aggregation pipeline.

Modelling choices.

* A Go `map[FlowKey]FlowStats` is a `Finmap`: keys are unique and the map
  has no iteration order.  A `for key, stats := range m` loop is
  `Finmap.foldl`, which demands that the loop body commutes with itself, so
  nothing proved here depends on the order Go picks.
* Go's `int` is a signed two's-complement integer of 32 or 64 bits whose
  addition wraps around.  A counter is an `Int`, and every addition the
  program makes is followed by the reduction `wrapInt` to the range of
  `int`; the width is a parameter (`Lib.intSize`).
* A closed channel of packets is the finite list of the packets it
  delivered, in delivery order.
* `gopacket` is outside the repository.  A decoded packet is modelled by the
  two layers the worker asks for; the `String()` methods of `net.IP` and
  `layers.TCPPort` are parameters (`Lib`).
-/

namespace FlowAgg

/-! ## Go's `int` -/

/-- Width of Go's `int` on the platform the program is built for. -/
inductive IntSize where
  | bits32
  | bits64
deriving DecidableEq, Repr

/-- The bound of `int`: its values are the `x` with `-bound <= x < bound`,
that is `bound = MaxInt + 1`. -/
def IntSize.bound : IntSize → Nat
  | IntSize.bits32 => 2147483648
  | IntSize.bits64 => 9223372036854775808

/-- Whether an integer is a value of `int`. -/
abbrev InIntRange (s : IntSize) (x : Int) : Prop :=
  -(s.bound : Int) ≤ x ∧ x < (s.bound : Int)

/-- Reduction of an exact integer result to `int`: two's-complement
wrap-around. -/
def wrapInt (s : IntSize) (x : Int) : Int :=
  (x + (s.bound : Int)) % (2 * (s.bound : Int)) - (s.bound : Int)

/-- Go's `+` on two `int` values. -/
def intAdd (s : IntSize) (a b : Int) : Int :=
  wrapInt s (a + b)

/-! ## Data model -/

/-- Flow identity, `type FlowKey struct` of `main.go`. -/
structure FlowKey where
  SrcIP : String
  SrcPort : String
  DstIP : String
  DstPort : String
deriving DecidableEq, Repr

/-- Per-flow counters, `type FlowStats struct` of `main.go`.  The fields are
Go `int`s: the program only ever stores values reduced by `wrapInt`. -/
structure FlowStats where
  Bytes : Int
  Pkts : Int
deriving DecidableEq, Repr

/-- Go `map[FlowKey]FlowStats`. -/
abbrev FlowMap := Finmap (fun _ : FlowKey => FlowStats)

/-- Go map read `m[key]`: the stored value, or the zero value of `FlowStats`
when the key is absent. -/
def FlowMap.index (m : FlowMap) (key : FlowKey) : FlowStats :=
  (m.lookup key).getD ⟨0, 0⟩

/-! ## Decoded packets (the part of `gopacket` the worker uses) -/

/-- Go `net.IP`, a byte slice. -/
abbrev IP := List Nat

/-- Go `layers.TCPPort`, a 16-bit port number. -/
abbrev TCPPort := Nat

/-- The fields of `layers.IPv4` read by the worker. -/
structure IPv4 where
  SrcIP : IP
  DstIP : IP
deriving DecidableEq, Repr

/-- The fields of `layers.TCP` read by the worker. -/
structure TCP where
  SrcPort : TCPPort
  DstPort : TCPPort
  Payload : List Nat
deriving DecidableEq, Repr

/-- A `gopacket.Packet` as the worker sees it: the result of
`packet.Layer(layers.LayerTypeIPv4)` and of `packet.Layer(layers.LayerTypeTCP)`,
`none` standing for Go's `nil`. -/
structure Packet where
  LayerIPv4 : Option IPv4
  LayerTCP : Option TCP
deriving DecidableEq, Repr

/-- What the program takes from its Go environment: the width of `int`, and
the two library renderings the worker calls, `net.IP.String()` and
`layers.TCPPort.String()`. -/
structure Lib where
  intSize : IntSize
  ipString : IP → String
  portString : TCPPort → String

/-! ## `packetWorker` -/

/-- Body of the `for packet := range packetChan` loop of `packetWorker`
(lines 86-111), acting on the worker's local `flowMap`. -/
def packetWorkerStep (lib : Lib) (flowMap : FlowMap) (packet : Packet) : FlowMap :=
  match packet.LayerIPv4 with
  | none => flowMap
  | some ip =>
    let srcIP := lib.ipString ip.SrcIP
    let dstIP := lib.ipString ip.DstIP
    match packet.LayerTCP with
    | none => flowMap
    | some tcp =>
      let srcPort := lib.portString tcp.SrcPort
      let dstPort := lib.portString tcp.DstPort
      let key : FlowKey := ⟨srcIP, srcPort, dstIP, dstPort⟩
      let stats := flowMap.index key
      let stats : FlowStats :=
        ⟨intAdd lib.intSize stats.Bytes (tcp.Payload.length : Int), stats.Pkts⟩
      let stats : FlowStats := ⟨stats.Bytes, intAdd lib.intSize stats.Pkts 1⟩
      flowMap.insert key stats

/-- The packet loop of `packetWorker` started from a given local table. -/
def packetWorkerFrom (lib : Lib) (flowMap : FlowMap) (packetChan : List Packet) : FlowMap :=
  packetChan.foldl (packetWorkerStep lib) flowMap

/-- The table `packetWorker` sends on `resultChan` once `packetChan` is closed
after delivering the given packets. -/
def packetWorker (lib : Lib) (packetChan : List Packet) : FlowMap :=
  packetWorkerFrom lib ∅ packetChan

/-- The key `packetWorker` builds (line 102) for a frame with the given
layers. -/
def flowKey (lib : Lib) (ip : IPv4) (tcp : TCP) : FlowKey :=
  { SrcIP := lib.ipString ip.SrcIP
    SrcPort := lib.portString tcp.SrcPort
    DstIP := lib.ipString ip.DstIP
    DstPort := lib.portString tcp.DstPort }

/-! ## The coordinator loop of `main` -/

/-- Body of the merge loop of `main` (lines 60-63). -/
def mergeEntry (lib : Lib) (flowMap : FlowMap) (key : FlowKey) (stats : FlowStats) :
    FlowMap :=
  flowMap.insert key
    ⟨intAdd lib.intSize (flowMap.index key).Bytes stats.Bytes,
     intAdd lib.intSize (flowMap.index key).Pkts stats.Pkts⟩

/-- The `case result := <-resultChan` branch of `main` (lines 57-64):
`for key, stats := range result` over the received table. -/
def mainMerge (lib : Lib) (flowMap result : FlowMap) : FlowMap :=
  Finmap.foldl (mergeEntry lib)
    (by
      have hw : ∀ a b c : Int,
          wrapInt lib.intSize (wrapInt lib.intSize (a + b) + c) =
            wrapInt lib.intSize (wrapInt lib.intSize (a + c) + b) := by
        intro a b c
        have e : ∀ u v : Int,
            (u + (lib.intSize.bound : Int)) % (2 * (lib.intSize.bound : Int)) -
                (lib.intSize.bound : Int) + v + (lib.intSize.bound : Int) =
              (u + (lib.intSize.bound : Int)) % (2 * (lib.intSize.bound : Int)) + v := by
          intro u v
          ring
        unfold wrapInt
        rw [e, e, Int.emod_add_emod, Int.emod_add_emod]
        congr 2
        ring
      intro d a₁ b₁ a₂ b₂
      apply Finmap.ext_lookup
      intro x
      by_cases h12 : a₁ = a₂
      · subst h12
        by_cases hx : x = a₁
        · subst hx
          simp [mergeEntry, intAdd, FlowMap.index, Finmap.lookup_insert, hw]
        · simp [mergeEntry, Finmap.lookup_insert_of_ne _ hx]
      · have h21 : a₂ ≠ a₁ := fun h => h12 h.symm
        by_cases hx1 : x = a₁
        · subst hx1
          simp [mergeEntry, FlowMap.index, Finmap.lookup_insert,
            Finmap.lookup_insert_of_ne _ h12, Finmap.lookup_insert_of_ne _ h21]
        · by_cases hx2 : x = a₂
          · subst hx2
            simp [mergeEntry, FlowMap.index, Finmap.lookup_insert,
              Finmap.lookup_insert_of_ne _ h12, Finmap.lookup_insert_of_ne _ h21]
          · simp [mergeEntry, Finmap.lookup_insert_of_ne _ hx1,
              Finmap.lookup_insert_of_ne _ hx2])
    flowMap result

/-- One `Printf` call of the report loop (lines 70-71), recorded by its six
arguments. -/
structure FlowLine where
  SrcIP : String
  SrcPort : String
  DstIP : String
  DstPort : String
  SrcBytes : Int
  SrcPkts : Int
deriving DecidableEq, Repr

/-- The `Printf` call made for one entry of the canonical table. -/
def flowLine (key : FlowKey) (stats : FlowStats) : FlowLine :=
  ⟨key.SrcIP, key.SrcPort, key.DstIP, key.DstPort, stats.Bytes, stats.Pkts⟩

/-- What one ticker branch prints: the header with the value of `time.Now()`,
and one flow line per iteration of `range flowMap`.  The lines form a
multiset because the iteration order is unspecified; the closing blank line
carries no data and is left out. -/
structure Report where
  now : Nat
  lines : Multiset FlowLine
deriving DecidableEq

/-- State of the coordinator loop: the canonical `flowMap` and everything
printed so far. -/
structure Coordinator where
  flowMap : FlowMap
  out : List Report
deriving DecidableEq

/-- The `case <-ticker.C` branch of `main` (lines 66-78): print the table,
then replace it by a fresh empty map. -/
def mainTick (now : Nat) (s : Coordinator) : Coordinator :=
  { flowMap := ∅
    out := s.out ++ [⟨now, s.flowMap.entries.map (fun e => flowLine e.1 e.2)⟩] }

/-- The two events the `select` of `main` waits for. -/
inductive Event where
  | Merge (result : FlowMap)
  | Tick (now : Nat)

/-- One iteration of the `for { select { ... } }` loop of `main`. -/
def mainStep (lib : Lib) (s : Coordinator) : Event → Coordinator
  | Event.Merge result => { s with flowMap := mainMerge lib s.flowMap result }
  | Event.Tick now => mainTick now s

/-- The coordinator loop run over a finite sequence of events. -/
def mainLoop (lib : Lib) (s : Coordinator) (events : List Event) : Coordinator :=
  events.foldl (mainStep lib) s

/-- State of the coordinator when `main` enters its loop (line 36). -/
def mainInit : Coordinator := ⟨∅, []⟩

/-- Successive merges of a list of received tables, with no tick between. -/
def mergeAll (lib : Lib) (flowMap : FlowMap) (results : List FlowMap) : FlowMap :=
  results.foldl (mainMerge lib) flowMap

/-! ## Reference definitions, written from the specification -/

/-- Key part of the spec's Frame Extractor (§4.1): the flow key of a frame
that carries both an IPv4 and a TCP layer, "no record" otherwise. -/
def specKey (lib : Lib) (p : Packet) : Option FlowKey :=
  match p.LayerIPv4, p.LayerTCP with
  | some ip, some tcp =>
    some ⟨lib.ipString ip.SrcIP, lib.portString tcp.SrcPort,
      lib.ipString ip.DstIP, lib.portString tcp.DstPort⟩
  | _, _ => none

/-- The `byte_delta` of the spec's Frame Extractor: the TCP payload length. -/
def specPayloadLen (p : Packet) : Int :=
  match p.LayerTCP with
  | some tcp => (tcp.Payload.length : Int)
  | none => 0

/-- The frames of a stream that carry both layers and whose key is `k`. -/
def framesOf (lib : Lib) (stream : List Packet) (k : FlowKey) : List Packet :=
  stream.filter (fun p => decide (specKey lib p = some k))

/-- Reference packet count of flow `k` in a stream: an exact integer. -/
def specPkts (lib : Lib) (stream : List Packet) (k : FlowKey) : Int :=
  ((framesOf lib stream k).length : Int)

/-- Reference byte count of flow `k` in a stream: an exact integer. -/
def specBytes (lib : Lib) (stream : List Packet) (k : FlowKey) : Int :=
  ((framesOf lib stream k).map specPayloadLen).sum

/-- A frame stream split among workers: each frame is tagged with the index
of the worker that dequeues it. -/
abbrev Tagged := List (Nat × Packet)

/-- The whole stream of a tagged stream. -/
def Tagged.stream (t : Tagged) : List Packet := t.map Prod.snd

/-- The frames worker `i` receives, in stream order. -/
def Tagged.slice (t : Tagged) (i : Nat) : List Packet :=
  (t.filter (fun x => decide (x.1 = i))).map Prod.snd

/-- The tables the `n` workers emit for a tagged stream. -/
def workerTables (lib : Lib) (n : Nat) (t : Tagged) : List FlowMap :=
  (List.range n).map (fun i => packetWorker lib (t.slice i))

/-- Whether an event is a tick. -/
def Event.isTick : Event → Bool
  | Event.Merge _ => false
  | Event.Tick _ => true

/-- The local tables among a sequence of events. -/
def mergedTables (events : List Event) : List FlowMap :=
  events.filterMap (fun e => match e with
    | Event.Merge result => some result
    | Event.Tick _ => none)

/-- The local tables merged since the most recent tick, or since the start
when there was none: the contributions of the current window. -/
def currentWindow (events : List Event) : List FlowMap :=
  mergedTables (events.rtakeWhile (fun e => !e.isTick))

/-- Exact sum of the bytes a list of tables holds for a key (0 where the key
is absent). -/
def sumBytes (tables : List FlowMap) (k : FlowKey) : Int :=
  (tables.map (fun L => (L.index k).Bytes)).sum

/-- Exact sum of the packets a list of tables holds for a key (0 where the
key is absent). -/
def sumPkts (tables : List FlowMap) (k : FlowKey) : Int :=
  (tables.map (fun L => (L.index k).Pkts)).sum

/-! ## Concrete inputs used by the scenarios -/

/-- A 64-bit platform with renderings in plain decimal: dotted decimal
addresses, decimal ports. -/
def decimalLib : Lib :=
  { intSize := IntSize.bits64
    ipString := fun ip => ".".intercalate (ip.map Nat.repr)
    portString := Nat.repr }

/-- A 32-bit platform with the same renderings. -/
def decimalLib32 : Lib :=
  { intSize := IntSize.bits32
    ipString := fun ip => ".".intercalate (ip.map Nat.repr)
    portString := Nat.repr }

/-- A TCP/IPv4 frame with the given endpoints and payload length. -/
def tcpFrame (src : IP) (sport : TCPPort) (dst : IP) (dport : TCPPort) (len : Nat) : Packet :=
  { LayerIPv4 := some ⟨src, dst⟩
    LayerTCP := some ⟨sport, dport, List.replicate len 0⟩ }

/-- An IPv4 frame without a TCP layer (for instance UDP). -/
def nonTcpFrame (src dst : IP) : Packet :=
  { LayerIPv4 := some ⟨src, dst⟩
    LayerTCP := none }

/-- Flow A of the scenarios. -/
def keyA : FlowKey := ⟨"1.2.3.4", "1111", "5.6.7.8", "80"⟩

/-- Flow B of the scenarios: the reverse direction of flow A. -/
def keyB : FlowKey := ⟨"5.6.7.8", "80", "1.2.3.4", "1111"⟩

/-- A frame of flow A. -/
def frameA (len : Nat) : Packet := tcpFrame [1, 2, 3, 4] 1111 [5, 6, 7, 8] 80 len

/-- A frame of flow B. -/
def frameB (len : Nat) : Packet := tcpFrame [5, 6, 7, 8] 80 [1, 2, 3, 4] 1111 len

/-- Scenario "single flow": three frames of flow A, payloads 10, 20, 30. -/
def singleFlow : List Packet := [frameA 10, frameA 20, frameA 30]

/-- Scenario "mixed traffic": two frames of flow A, a non-TCP frame and one
frame of flow B. -/
def mixedTraffic : List Packet :=
  [frameA 5, nonTcpFrame [9, 9, 9, 9] [1, 2, 3, 4], frameB 100, frameA 7]

/-- A stream of `n` TCP segments of flow A that carry no payload (bare
acknowledgements). -/
def ackStream (n : Nat) : List Packet := List.replicate n (frameA 0)

/-- A table with the single entry `key -> stats`. -/
def oneEntry (key : FlowKey) (stats : FlowStats) : FlowMap :=
  Finmap.singleton key stats

/-! ## Lemmas on `int` arithmetic -/

theorem bound_pos (s : IntSize) : 0 < (s.bound : Int) := by
  cases s <;> simp [IntSize.bound]

theorem two_lt_bound (s : IntSize) : 2 < (s.bound : Int) := by
  cases s <;> simp [IntSize.bound]

/-- A result that fits in `int` is not changed by the reduction. -/
theorem wrapInt_of_inRange (s : IntSize) (x : Int) (h : InIntRange s x) : wrapInt s x = x := by
  have hb := bound_pos s
  obtain ⟨h1, h2⟩ := h
  unfold wrapInt
  rw [Int.emod_eq_of_lt (by omega) (by omega)]
  omega

theorem wrapInt_of_nonneg_of_lt (s : IntSize) (x : Int) (h0 : 0 ≤ x)
    (h1 : x < (s.bound : Int)) : wrapInt s x = x :=
  wrapInt_of_inRange s x ⟨by have := bound_pos s; omega, h1⟩

theorem wrapInt_zero (s : IntSize) : wrapInt s 0 = 0 :=
  wrapInt_of_nonneg_of_lt s 0 (le_refl 0) (bound_pos s)

theorem wrapInt_one (s : IntSize) : wrapInt s 1 = 1 :=
  wrapInt_of_nonneg_of_lt s 1 (by omega) (by have := two_lt_bound s; omega)

theorem wrapInt_two (s : IntSize) : wrapInt s 2 = 2 :=
  wrapInt_of_nonneg_of_lt s 2 (by omega) (two_lt_bound s)

/-- Every reduced result is a value of `int`. -/
theorem wrapInt_inRange (s : IntSize) (x : Int) : InIntRange s (wrapInt s x) := by
  have hb := bound_pos s
  have h1 := Int.emod_nonneg (x + (s.bound : Int)) (show (2 * (s.bound : Int)) ≠ 0 by omega)
  have h2 := Int.emod_lt_of_pos (x + (s.bound : Int)) (show 0 < (2 * (s.bound : Int)) by omega)
  unfold wrapInt InIntRange
  constructor <;> omega

/-- Reducing an intermediate result does not change the reduced sum. -/
theorem wrapInt_wrapInt_add (s : IntSize) (a b : Int) :
    wrapInt s (wrapInt s a + b) = wrapInt s (a + b) := by
  unfold wrapInt
  have e : (a + (s.bound : Int)) % (2 * (s.bound : Int)) - (s.bound : Int) + b +
        (s.bound : Int) =
      (a + (s.bound : Int)) % (2 * (s.bound : Int)) + b := by ring
  rw [e, Int.emod_add_emod]
  congr 2
  ring

theorem wrapInt_add_wrapInt (s : IntSize) (a b : Int) :
    wrapInt s (a + wrapInt s b) = wrapInt s (a + b) := by
  rw [add_comm, wrapInt_wrapInt_add, add_comm]

theorem wrapInt_wrapInt (s : IntSize) (a : Int) : wrapInt s (wrapInt s a) = wrapInt s a := by
  have h := wrapInt_wrapInt_add s a 0
  simpa using h

/-- The reduced sum of reduced terms is the reduced exact sum. -/
theorem wrapInt_sum_map_wrapInt {α : Type} (s : IntSize) (f : α → Int) (l : List α) (c : Int) :
    wrapInt s (c + (l.map (fun x => wrapInt s (f x))).sum) =
      wrapInt s (c + (l.map f).sum) := by
  induction l generalizing c with
  | nil => rfl
  | cons x l ih =>
    simp only [List.map_cons, List.sum_cons]
    rw [← add_assoc, ih, add_comm c, add_assoc, wrapInt_wrapInt_add]
    congr 1
    ring

/-! ## Lemmas on map reads -/

theorem index_empty (k : FlowKey) : FlowMap.index ∅ k = ⟨0, 0⟩ := by
  simp [FlowMap.index]

theorem index_of_lookup_some {m : FlowMap} {k : FlowKey} {v : FlowStats}
    (h : m.lookup k = some v) : m.index k = v := by
  simp [FlowMap.index, h]

theorem index_of_lookup_none {m : FlowMap} {k : FlowKey}
    (h : m.lookup k = none) : m.index k = ⟨0, 0⟩ := by
  simp [FlowMap.index, h]

theorem index_of_not_mem {m : FlowMap} {k : FlowKey} (h : k ∉ m) : m.index k = ⟨0, 0⟩ :=
  index_of_lookup_none (Finmap.lookup_eq_none.mpr h)

/-- A read is determined by presence and by the Go-style indexed read. -/
theorem lookup_eq_ite_mem (m : FlowMap) (k : FlowKey) :
    m.lookup k = if k ∈ m then some (m.index k) else none := by
  by_cases h : k ∈ m
  · obtain ⟨v, hv⟩ := Finmap.mem_iff.mp h
    rw [if_pos h, index_of_lookup_some hv, hv]
  · rw [if_neg h]
    exact Finmap.lookup_eq_none.mpr h

/-- Two tables with the same keys and the same indexed reads are equal. -/
theorem flowMap_ext {m₁ m₂ : FlowMap} (hmem : ∀ k, k ∈ m₁ ↔ k ∈ m₂)
    (hidx : ∀ k, m₁.index k = m₂.index k) : m₁ = m₂ := by
  apply Finmap.ext_lookup
  intro k
  rw [lookup_eq_ite_mem m₁, lookup_eq_ite_mem m₂, hidx k]
  by_cases h : k ∈ m₁
  · rw [if_pos h, if_pos ((hmem k).mp h)]
  · rw [if_neg h, if_neg (fun h2 => h ((hmem k).mpr h2))]

theorem mem_oneEntry (key k : FlowKey) (stats : FlowStats) :
    k ∈ oneEntry key stats ↔ k = key := by
  simp [oneEntry, Finmap.mem_singleton]

theorem lookup_oneEntry_self (key : FlowKey) (stats : FlowStats) :
    (oneEntry key stats).lookup key = some stats := by
  simp [oneEntry, Finmap.lookup_singleton_eq]

theorem index_oneEntry_self (key : FlowKey) (stats : FlowStats) :
    (oneEntry key stats).index key = stats :=
  index_of_lookup_some (lookup_oneEntry_self key stats)

/-! ## Lemmas on the merge branch -/

/-- What a single merged entry does to the read of any key. -/
theorem lookup_mergeEntry (lib : Lib) (C : FlowMap) (a : FlowKey) (b : FlowStats)
    (k : FlowKey) :
    (mergeEntry lib C a b).lookup k =
      if k = a then
        some ⟨intAdd lib.intSize (C.index a).Bytes b.Bytes,
              intAdd lib.intSize (C.index a).Pkts b.Pkts⟩
      else C.lookup k := by
  by_cases h : k = a
  · subst h
    simp [mergeEntry]
  · simp [mergeEntry, h, Finmap.lookup_insert_of_ne _ h]

/-- The merge loop run over an association list with distinct keys. -/
theorem lookup_foldl_mergeEntry (lib : Lib) (l : List (Sigma fun _ : FlowKey => FlowStats))
    (hl : l.NodupKeys) (C : FlowMap) (k : FlowKey) :
    (l.foldl (fun d s => mergeEntry lib d s.1 s.2) C).lookup k =
      match l.dlookup k with
      | some v =>
        some ⟨intAdd lib.intSize (C.index k).Bytes v.Bytes,
              intAdd lib.intSize (C.index k).Pkts v.Pkts⟩
      | none => C.lookup k := by
  induction l generalizing C with
  | nil => simp
  | cons e l ih =>
    obtain ⟨a, b⟩ := e
    rw [List.nodupKeys_cons] at hl
    rw [List.foldl_cons, ih hl.2]
    by_cases h : k = a
    · subst h
      have hnone : l.dlookup k = none := by
        rw [List.dlookup_eq_none]; exact hl.1
      simp [hnone, lookup_mergeEntry]
    · rw [List.dlookup_cons_ne _ _ h]
      have hidx : (mergeEntry lib C a b).index k = C.index k := by
        simp [FlowMap.index, lookup_mergeEntry, h]
      rw [hidx, lookup_mergeEntry, if_neg h]

/-- Read of a key after the merge branch, by cases on the incoming table. -/
theorem lookup_mainMerge (lib : Lib) (C L : FlowMap) (k : FlowKey) :
    (mainMerge lib C L).lookup k =
      match L.lookup k with
      | some l =>
        some ⟨intAdd lib.intSize (C.index k).Bytes l.Bytes,
              intAdd lib.intSize (C.index k).Pkts l.Pkts⟩
      | none => C.lookup k := by
  induction L using Finmap.induction_on with
  | H s =>
    have := lookup_foldl_mergeEntry lib s.entries s.nodupKeys C k
    simpa [mainMerge, Finmap.foldl, AList.lookup] using this

theorem mem_mainMerge (lib : Lib) (C L : FlowMap) (k : FlowKey) :
    k ∈ mainMerge lib C L ↔ k ∈ C ∨ k ∈ L := by
  rw [← Finmap.lookup_isSome, lookup_mainMerge]
  cases hL : L.lookup k with
  | none =>
    have : k ∉ L := Finmap.lookup_eq_none.mp hL
    simp [Finmap.lookup_isSome, this]
  | some l =>
    have : k ∈ L := Finmap.mem_of_lookup_eq_some hL
    simp [this]

theorem index_mainMerge (lib : Lib) (C L : FlowMap) (k : FlowKey) :
    (mainMerge lib C L).index k =
      if k ∈ L then
        ⟨wrapInt lib.intSize ((C.index k).Bytes + (L.index k).Bytes),
         wrapInt lib.intSize ((C.index k).Pkts + (L.index k).Pkts)⟩
      else C.index k := by
  cases hL : L.lookup k with
  | none =>
    have hk : k ∉ L := Finmap.lookup_eq_none.mp hL
    have h1 : (mainMerge lib C L).lookup k = C.lookup k := by rw [lookup_mainMerge, hL]
    simp [FlowMap.index, h1, hk]
  | some l =>
    have hk : k ∈ L := Finmap.mem_of_lookup_eq_some hL
    have h1 := lookup_mainMerge lib C L k
    rw [hL] at h1
    rw [if_pos hk, index_of_lookup_some h1, index_of_lookup_some hL]
    rfl

theorem mergeAll_nil (lib : Lib) (C : FlowMap) : mergeAll lib C [] = C := rfl

theorem mergeAll_cons (lib : Lib) (C L : FlowMap) (Ls : List FlowMap) :
    mergeAll lib C (L :: Ls) = mergeAll lib (mainMerge lib C L) Ls := rfl

theorem mergeAll_concat (lib : Lib) (C : FlowMap) (Ls : List FlowMap) (L : FlowMap) :
    mergeAll lib C (Ls ++ [L]) = mainMerge lib (mergeAll lib C Ls) L := by
  simp [mergeAll, List.foldl_append]

theorem mem_mergeAll (lib : Lib) (C : FlowMap) (Ls : List FlowMap) (k : FlowKey) :
    k ∈ mergeAll lib C Ls ↔ k ∈ C ∨ ∃ L ∈ Ls, k ∈ L := by
  induction Ls generalizing C with
  | nil => simp [mergeAll_nil]
  | cons L Ls ih =>
    rw [mergeAll_cons, ih, mem_mainMerge]
    simp only [List.mem_cons, exists_eq_or_imp, or_assoc]

theorem sumBytes_cons (L : FlowMap) (Ls : List FlowMap) (k : FlowKey) :
    sumBytes (L :: Ls) k = (L.index k).Bytes + sumBytes Ls k := rfl

theorem sumPkts_cons (L : FlowMap) (Ls : List FlowMap) (k : FlowKey) :
    sumPkts (L :: Ls) k = (L.index k).Pkts + sumPkts Ls k := rfl

/-- Tables that do not hold a key contribute nothing to its sums. -/
theorem sums_eq_zero_of_not_mem (Ls : List FlowMap) (k : FlowKey) (h : ∀ L ∈ Ls, k ∉ L) :
    sumBytes Ls k = 0 ∧ sumPkts Ls k = 0 := by
  induction Ls with
  | nil => exact ⟨rfl, rfl⟩
  | cons L Ls ih =>
    have hL : k ∉ L := h L (List.mem_cons_self _ _)
    obtain ⟨hb, hp⟩ := ih (fun M hM => h M (List.mem_cons_of_mem _ hM))
    rw [sumBytes_cons, sumPkts_cons, hb, hp, index_of_not_mem hL]
    exact ⟨rfl, rfl⟩

/-- Read of a key after a sequence of merges: untouched when no merged table
holds the key, the reduced exact sum otherwise. -/
theorem index_mergeAll (lib : Lib) (C : FlowMap) (Ls : List FlowMap) (k : FlowKey) :
    (mergeAll lib C Ls).index k =
      if ∃ L ∈ Ls, k ∈ L then
        ⟨wrapInt lib.intSize ((C.index k).Bytes + sumBytes Ls k),
         wrapInt lib.intSize ((C.index k).Pkts + sumPkts Ls k)⟩
      else C.index k := by
  induction Ls generalizing C with
  | nil => simp [mergeAll_nil]
  | cons L Ls ih =>
    rw [mergeAll_cons, ih, index_mainMerge, sumBytes_cons, sumPkts_cons]
    by_cases hL : k ∈ L
    · have hex : ∃ M ∈ L :: Ls, k ∈ M := ⟨L, List.mem_cons_self _ _, hL⟩
      rw [if_pos hL, if_pos hex]
      by_cases hrest : ∃ M ∈ Ls, k ∈ M
      · rw [if_pos hrest]
        simp only [wrapInt_wrapInt_add, add_assoc]
      · rw [if_neg hrest]
        have hz := sums_eq_zero_of_not_mem Ls k
          (fun M hM hk => hrest ⟨M, hM, hk⟩)
        rw [hz.1, hz.2, add_zero, add_zero]
    · have hz : L.index k = ⟨0, 0⟩ := index_of_not_mem hL
      rw [if_neg hL, hz]
      by_cases hrest : ∃ M ∈ Ls, k ∈ M
      · have hex : ∃ M ∈ L :: Ls, k ∈ M := by
          obtain ⟨M, hM, hk⟩ := hrest
          exact ⟨M, List.mem_cons_of_mem _ hM, hk⟩
        rw [if_pos hrest, if_pos hex]
        simp
      · have hex : ¬ ∃ M ∈ L :: Ls, k ∈ M := by
          rintro ⟨M, hM, hk⟩
          rcases List.mem_cons.mp hM with rfl | hM
          · exact hL hk
          · exact hrest ⟨M, hM, hk⟩
        rw [if_neg hrest, if_neg hex]

theorem sumBytes_perm {Ls₁ Ls₂ : List FlowMap} (h : Ls₁.Perm Ls₂) (k : FlowKey) :
    sumBytes Ls₁ k = sumBytes Ls₂ k := by
  unfold sumBytes
  exact (h.map (fun L => (L.index k).Bytes)).sum_eq

theorem sumPkts_perm {Ls₁ Ls₂ : List FlowMap} (h : Ls₁.Perm Ls₂) (k : FlowKey) :
    sumPkts Ls₁ k = sumPkts Ls₂ k := by
  unfold sumPkts
  exact (h.map (fun L => (L.index k).Pkts)).sum_eq

/-- Merging a permuted list of tables gives the same table. -/
theorem mergeAll_perm (lib : Lib) (C : FlowMap) {Ls₁ Ls₂ : List FlowMap}
    (h : Ls₁.Perm Ls₂) : mergeAll lib C Ls₁ = mergeAll lib C Ls₂ := by
  apply flowMap_ext
  · intro k
    rw [mem_mergeAll, mem_mergeAll]
    constructor
    · rintro (hc | ⟨L, hL, hk⟩)
      · exact Or.inl hc
      · exact Or.inr ⟨L, h.mem_iff.mp hL, hk⟩
    · rintro (hc | ⟨L, hL, hk⟩)
      · exact Or.inl hc
      · exact Or.inr ⟨L, h.mem_iff.mpr hL, hk⟩
  · intro k
    have hex : (∃ L ∈ Ls₁, k ∈ L) ↔ (∃ L ∈ Ls₂, k ∈ L) := by
      constructor
      · rintro ⟨L, hL, hk⟩
        exact ⟨L, h.mem_iff.mp hL, hk⟩
      · rintro ⟨L, hL, hk⟩
        exact ⟨L, h.mem_iff.mpr hL, hk⟩
    rw [index_mergeAll, index_mergeAll, sumBytes_perm h, sumPkts_perm h]
    by_cases hc : ∃ L ∈ Ls₁, k ∈ L
    · rw [if_pos hc, if_pos (hex.mp hc)]
    · rw [if_neg hc, if_neg (fun h2 => hc (hex.mpr h2))]

/-! ## Lemmas on the packet worker -/

theorem specKey_eq_none_iff (lib : Lib) (p : Packet) :
    specKey lib p = none ↔ p.LayerIPv4 = none ∨ p.LayerTCP = none := by
  cases h1 : p.LayerIPv4 <;> cases h2 : p.LayerTCP <;> simp [specKey, h1, h2]

/-- A frame without a record leaves the local table as it is. -/
theorem packetWorkerStep_of_none (lib : Lib) (T : FlowMap) (p : Packet)
    (h : specKey lib p = none) : packetWorkerStep lib T p = T := by
  cases h1 : p.LayerIPv4 <;> cases h2 : p.LayerTCP <;>
    simp [specKey, packetWorkerStep, h1, h2] at h ⊢

/-- A frame with a record rewrites the entry of its key. -/
theorem packetWorkerStep_of_some (lib : Lib) (T : FlowMap) (p : Packet) (k : FlowKey)
    (h : specKey lib p = some k) :
    packetWorkerStep lib T p =
      T.insert k ⟨wrapInt lib.intSize ((T.index k).Bytes + specPayloadLen p),
                  wrapInt lib.intSize ((T.index k).Pkts + 1)⟩ := by
  cases h1 : p.LayerIPv4 <;> cases h2 : p.LayerTCP <;>
    simp [specKey, h1, h2] at h
  subst h
  simp [packetWorkerStep, specPayloadLen, intAdd, h1, h2]

theorem mem_packetWorkerStep (lib : Lib) (T : FlowMap) (p : Packet) (k : FlowKey) :
    k ∈ packetWorkerStep lib T p ↔ k ∈ T ∨ specKey lib p = some k := by
  cases h : specKey lib p with
  | none => simp [packetWorkerStep_of_none lib T p h]
  | some k' =>
    rw [packetWorkerStep_of_some lib T p k' h, Finmap.mem_insert]
    constructor
    · rintro (rfl | hk)
      · exact Or.inr rfl
      · exact Or.inl hk
    · rintro (hk | hk)
      · exact Or.inr hk
      · exact Or.inl (Option.some.inj hk).symm

theorem index_packetWorkerStep (lib : Lib) (T : FlowMap) (p : Packet) (k : FlowKey) :
    (packetWorkerStep lib T p).index k =
      if specKey lib p = some k
      then ⟨wrapInt lib.intSize ((T.index k).Bytes + specPayloadLen p),
            wrapInt lib.intSize ((T.index k).Pkts + 1)⟩
      else T.index k := by
  cases h : specKey lib p with
  | none => simp [packetWorkerStep_of_none lib T p h]
  | some k' =>
    rw [packetWorkerStep_of_some lib T p k' h]
    by_cases hk : k' = k
    · subst hk
      simp [FlowMap.index]
    · have hk2 : k ≠ k' := fun e => hk e.symm
      simp [FlowMap.index, hk, Finmap.lookup_insert_of_ne _ hk2]

theorem framesOf_nil (lib : Lib) (k : FlowKey) : framesOf lib [] k = [] := rfl

theorem framesOf_cons (lib : Lib) (p : Packet) (ps : List Packet) (k : FlowKey) :
    framesOf lib (p :: ps) k =
      if specKey lib p = some k then p :: framesOf lib ps k else framesOf lib ps k := by
  by_cases h : specKey lib p = some k <;> simp [framesOf, List.filter_cons, h]

theorem specPkts_cons (lib : Lib) (p : Packet) (ps : List Packet) (k : FlowKey) :
    specPkts lib (p :: ps) k =
      (if specKey lib p = some k then 1 else 0) + specPkts lib ps k := by
  by_cases h : specKey lib p = some k
  · simp [specPkts, framesOf_cons, h]; ring
  · simp [specPkts, framesOf_cons, h]

theorem specBytes_cons (lib : Lib) (p : Packet) (ps : List Packet) (k : FlowKey) :
    specBytes lib (p :: ps) k =
      (if specKey lib p = some k then specPayloadLen p else 0) + specBytes lib ps k := by
  by_cases h : specKey lib p = some k <;> simp [specBytes, framesOf_cons, h]

theorem spec_of_framesOf_nil (lib : Lib) (ps : List Packet) (k : FlowKey)
    (h : framesOf lib ps k = []) : specBytes lib ps k = 0 ∧ specPkts lib ps k = 0 := by
  simp [specBytes, specPkts, h]

theorem packetWorkerFrom_nil (lib : Lib) (T : FlowMap) : packetWorkerFrom lib T [] = T := rfl

theorem packetWorkerFrom_cons (lib : Lib) (T : FlowMap) (p : Packet) (ps : List Packet) :
    packetWorkerFrom lib T (p :: ps) = packetWorkerFrom lib (packetWorkerStep lib T p) ps := rfl

theorem packetWorkerFrom_append (lib : Lib) (T : FlowMap) (ps qs : List Packet) :
    packetWorkerFrom lib T (ps ++ qs) = packetWorkerFrom lib (packetWorkerFrom lib T ps) qs := by
  simp [packetWorkerFrom, List.foldl_append]

theorem mem_packetWorkerFrom (lib : Lib) (T : FlowMap) (ps : List Packet) (k : FlowKey) :
    k ∈ packetWorkerFrom lib T ps ↔ k ∈ T ∨ framesOf lib ps k ≠ [] := by
  induction ps generalizing T with
  | nil => simp [packetWorkerFrom_nil, framesOf_nil]
  | cons p ps ih =>
    rw [packetWorkerFrom_cons, ih, mem_packetWorkerStep, framesOf_cons]
    by_cases h : specKey lib p = some k <;> simp [h]

/-- Read of a key after the packet loop: untouched when no frame has the key,
the reduced exact sums otherwise. -/
theorem index_packetWorkerFrom (lib : Lib) (T : FlowMap) (ps : List Packet) (k : FlowKey) :
    (packetWorkerFrom lib T ps).index k =
      if framesOf lib ps k = [] then T.index k
      else ⟨wrapInt lib.intSize ((T.index k).Bytes + specBytes lib ps k),
            wrapInt lib.intSize ((T.index k).Pkts + specPkts lib ps k)⟩ := by
  induction ps generalizing T with
  | nil => simp [packetWorkerFrom_nil, framesOf_nil]
  | cons p ps ih =>
    rw [packetWorkerFrom_cons, ih, index_packetWorkerStep, specBytes_cons, specPkts_cons,
      framesOf_cons]
    by_cases h : specKey lib p = some k
    · simp only [h, if_true]
      by_cases hr : framesOf lib ps k = []
      · obtain ⟨hb, hp⟩ := spec_of_framesOf_nil lib ps k hr
        simp [hr, hb, hp]
      · simp [hr, wrapInt_wrapInt_add, add_assoc]
    · simp only [h, if_false, zero_add]

theorem mem_packetWorker (lib : Lib) (ps : List Packet) (k : FlowKey) :
    k ∈ packetWorker lib ps ↔ framesOf lib ps k ≠ [] := by
  simp [packetWorker, mem_packetWorkerFrom, Finmap.not_mem_empty]

theorem index_packetWorker (lib : Lib) (ps : List Packet) (k : FlowKey) :
    (packetWorker lib ps).index k =
      ⟨wrapInt lib.intSize (specBytes lib ps k), wrapInt lib.intSize (specPkts lib ps k)⟩ := by
  rw [packetWorker, index_packetWorkerFrom, index_empty]
  by_cases h : framesOf lib ps k = []
  · obtain ⟨hb, hp⟩ := spec_of_framesOf_nil lib ps k h
    simp [h, hb, hp, wrapInt_zero]
  · simp [h]

theorem lookup_packetWorker (lib : Lib) (ps : List Packet) (k : FlowKey) :
    (packetWorker lib ps).lookup k =
      if framesOf lib ps k = [] then none
      else some ⟨wrapInt lib.intSize (specBytes lib ps k),
                 wrapInt lib.intSize (specPkts lib ps k)⟩ := by
  rw [lookup_eq_ite_mem, index_packetWorker]
  by_cases h : framesOf lib ps k = []
  · have hk : k ∉ packetWorker lib ps := fun hm => (mem_packetWorker lib ps k).mp hm h
    rw [if_neg hk, if_pos h]
  · have hk : k ∈ packetWorker lib ps := (mem_packetWorker lib ps k).mpr h
    rw [if_pos hk, if_neg h]

theorem specPayloadLen_nonneg (p : Packet) : 0 ≤ specPayloadLen p := by
  unfold specPayloadLen
  cases p.LayerTCP <;> simp

theorem specBytes_nonneg (lib : Lib) (ps : List Packet) (k : FlowKey) :
    0 ≤ specBytes lib ps k := by
  unfold specBytes
  apply List.sum_nonneg
  intro x hx
  obtain ⟨p, _, rfl⟩ := List.mem_map.mp hx
  exact specPayloadLen_nonneg p

theorem specPkts_nonneg (lib : Lib) (ps : List Packet) (k : FlowKey) :
    0 ≤ specPkts lib ps k := by
  simp [specPkts]

theorem framesOf_replicate_self (lib : Lib) (p : Packet) (k : FlowKey)
    (h : specKey lib p = some k) (n : Nat) :
    framesOf lib (List.replicate n p) k = List.replicate n p := by
  unfold framesOf
  rw [List.filter_eq_self]
  intro q hq
  rw [List.eq_of_mem_replicate hq]
  simp [h]

/-- The table a worker emits for `n > 0` copies of one accounted frame. -/
theorem packetWorker_replicate (lib : Lib) (p : Packet) (k : FlowKey)
    (h : specKey lib p = some k) (n : Nat) (hn : 0 < n) :
    packetWorker lib (List.replicate n p) =
      oneEntry k ⟨wrapInt lib.intSize ((n : Int) * specPayloadLen p),
                  wrapInt lib.intSize (n : Int)⟩ := by
  have hne : List.replicate n p ≠ [] := by
    intro e
    have := congrArg List.length e
    simp at this
    omega
  apply flowMap_ext
  · intro k'
    rw [mem_packetWorker, mem_oneEntry]
    constructor
    · intro hf
      by_contra hk
      apply hf
      unfold framesOf
      rw [List.filter_eq_nil_iff]
      intro q hq
      rw [List.eq_of_mem_replicate hq]
      simp only [h, decide_eq_true_eq, Option.some.injEq]
      exact fun e => hk e.symm
    · rintro rfl
      rw [framesOf_replicate_self lib p k' h]
      exact hne
  · intro k'
    by_cases hk : k' = k
    · subst hk
      rw [index_packetWorker, index_oneEntry_self]
      simp [specBytes, specPkts, framesOf_replicate_self lib p k' h]
    · have h1 : k' ∉ packetWorker lib (List.replicate n p) := by
        rw [mem_packetWorker]
        intro hf
        apply hf
        unfold framesOf
        rw [List.filter_eq_nil_iff]
        intro q hq
        rw [List.eq_of_mem_replicate hq]
        simp only [h, decide_eq_true_eq, Option.some.injEq]
        exact fun e => hk e.symm
      have h2 : k' ∉ oneEntry k ⟨wrapInt lib.intSize ((n : Int) * specPayloadLen p),
          wrapInt lib.intSize (n : Int)⟩ := by
        rw [mem_oneEntry]
        exact hk
      rw [index_of_not_mem h1, index_of_not_mem h2]

/-! ## Lemmas on a stream split among workers -/

theorem slice_cons (x : Nat × Packet) (t : Tagged) (i : Nat) :
    Tagged.slice (x :: t) i =
      if x.1 = i then x.2 :: Tagged.slice t i else Tagged.slice t i := by
  by_cases h : x.1 = i <;> simp [Tagged.slice, List.filter_cons, h]

theorem mem_slice (t : Tagged) (i : Nat) (p : Packet) :
    p ∈ Tagged.slice t i ↔ (i, p) ∈ t := by
  simp only [Tagged.slice, List.mem_map, List.mem_filter, decide_eq_true_eq]
  constructor
  · rintro ⟨⟨j, q⟩, ⟨hm, hj⟩, hq⟩
    simp only at hj hq
    subst hj; subst hq
    exact hm
  · intro h
    exact ⟨(i, p), ⟨h, rfl⟩, rfl⟩

theorem sum_range_ite (n j : Nat) (c : Int) :
    ((List.range n).map (fun i => if j = i then c else 0)).sum = if j < n then c else 0 := by
  induction n with
  | zero => simp
  | succ n ih =>
    rw [List.range_succ, List.map_append, List.sum_append, ih]
    by_cases h1 : j < n
    · have h2 : j ≠ n := by omega
      have h3 : j < n + 1 := by omega
      simp [h1, h2, h3]
    · by_cases h2 : j = n
      · subst h2
        simp
      · have h3 : ¬ j < n + 1 := by omega
        simp [h1, h2, h3]

/-- A quantity that adds up frame by frame is the sum of its values on the
workers' slices. -/
theorem sum_slices (f : List Packet → Int) (w : Packet → Int) (h0 : f [] = 0)
    (hc : ∀ p ps, f (p :: ps) = w p + f ps) (n : Nat) (t : Tagged)
    (h : ∀ x ∈ t, x.1 < n) :
    ((List.range n).map (fun i => f (t.slice i))).sum = f t.stream := by
  induction t with
  | nil => simp [Tagged.slice, Tagged.stream, h0]
  | cons x t ih =>
    have hx : x.1 < n := h x (List.mem_cons_self _ _)
    have ht : ∀ y ∈ t, y.1 < n := fun y hy => h y (List.mem_cons_of_mem _ hy)
    have hfun : (fun i => f (Tagged.slice (x :: t) i)) =
        (fun i => (if x.1 = i then w x.2 else 0) + f (Tagged.slice t i)) := by
      funext i
      rw [slice_cons]
      by_cases hi : x.1 = i <;> simp [hi, hc]
    rw [hfun, List.sum_map_add, sum_range_ite, if_pos hx, ih ht]
    simp [Tagged.stream, hc]

theorem framesOf_ne_nil_iff (lib : Lib) (ps : List Packet) (k : FlowKey) :
    framesOf lib ps k ≠ [] ↔ ∃ p ∈ ps, specKey lib p = some k := by
  simp [framesOf, List.filter_eq_nil_iff]

/-- A key is in some worker's table exactly when it is in the table of a
single worker run over the whole stream. -/
theorem mem_workerTables_iff (lib : Lib) (n : Nat) (t : Tagged) (h : ∀ x ∈ t, x.1 < n)
    (k : FlowKey) :
    (∃ L ∈ workerTables lib n t, k ∈ L) ↔ k ∈ packetWorker lib t.stream := by
  rw [mem_packetWorker, framesOf_ne_nil_iff]
  simp only [workerTables, List.mem_map, List.mem_range]
  constructor
  · rintro ⟨L, ⟨i, _, rfl⟩, hk⟩
    rw [mem_packetWorker, framesOf_ne_nil_iff] at hk
    obtain ⟨p, hp, hpk⟩ := hk
    refine ⟨p, ?_, hpk⟩
    exact List.mem_map.mpr ⟨(i, p), (mem_slice t i p).mp hp, rfl⟩
  · rintro ⟨p, hp, hpk⟩
    obtain ⟨⟨i, q⟩, hm, hq⟩ := List.mem_map.mp hp
    simp only at hq
    subst hq
    refine ⟨packetWorker lib (t.slice i), ⟨i, h _ hm, rfl⟩, ?_⟩
    rw [mem_packetWorker, framesOf_ne_nil_iff]
    exact ⟨q, (mem_slice t i q).mpr hm, hpk⟩

/-- Merging the tables of the workers into an empty canonical table gives the
table of a single worker run over the whole stream. -/
theorem mergeAll_workerTables (lib : Lib) (n : Nat) (t : Tagged) (h : ∀ x ∈ t, x.1 < n) :
    mergeAll lib ∅ (workerTables lib n t) = packetWorker lib t.stream := by
  apply flowMap_ext
  · intro k
    rw [mem_mergeAll, mem_workerTables_iff lib n t h]
    simp [Finmap.not_mem_empty]
  · intro k
    rw [index_mergeAll, index_empty]
    by_cases hex : ∃ L ∈ workerTables lib n t, k ∈ L
    · rw [if_pos hex, index_packetWorker]
      have hB := sum_slices (fun ps => specBytes lib ps k)
        (fun p => if specKey lib p = some k then specPayloadLen p else 0)
        (by simp [specBytes, framesOf_nil]) (fun p ps => specBytes_cons lib p ps k) n t h
      have hP := sum_slices (fun ps => specPkts lib ps k)
        (fun p => if specKey lib p = some k then 1 else 0)
        (by simp [specPkts, framesOf_nil]) (fun p ps => specPkts_cons lib p ps k) n t h
      have eB : sumBytes (workerTables lib n t) k =
          ((List.range n).map
            (fun i => wrapInt lib.intSize (specBytes lib (t.slice i) k))).sum := by
        simp [sumBytes, workerTables, List.map_map, Function.comp_def, index_packetWorker]
      have eP : sumPkts (workerTables lib n t) k =
          ((List.range n).map
            (fun i => wrapInt lib.intSize (specPkts lib (t.slice i) k))).sum := by
        simp [sumPkts, workerTables, List.map_map, Function.comp_def, index_packetWorker]
      rw [eB, eP,
        wrapInt_sum_map_wrapInt lib.intSize (fun i => specBytes lib (t.slice i) k),
        wrapInt_sum_map_wrapInt lib.intSize (fun i => specPkts lib (t.slice i) k),
        hB, hP, zero_add, zero_add]
    · rw [if_neg hex]
      have hk : k ∉ packetWorker lib t.stream :=
        fun hm => hex ((mem_workerTables_iff lib n t h k).mpr hm)
      rw [index_of_not_mem hk]

/-! ## Lemmas on the coordinator loop -/

theorem mainLoop_concat (lib : Lib) (s : Coordinator) (es : List Event) (e : Event) :
    mainLoop lib s (es ++ [e]) = mainStep lib (mainLoop lib s es) e := by
  simp [mainLoop, List.foldl_append]

theorem mainLoop_cons (lib : Lib) (s : Coordinator) (e : Event) (es : List Event) :
    mainLoop lib s (e :: es) = mainLoop lib (mainStep lib s e) es := rfl

theorem mainLoop_append (lib : Lib) (s : Coordinator) (es fs : List Event) :
    mainLoop lib s (es ++ fs) = mainLoop lib (mainLoop lib s es) fs := by
  simp [mainLoop, List.foldl_append]

theorem currentWindow_nil : currentWindow [] = [] := by
  simp [currentWindow, mergedTables]

theorem currentWindow_concat_merge (es : List Event) (r : FlowMap) :
    currentWindow (es ++ [Event.Merge r]) = currentWindow es ++ [r] := by
  unfold currentWindow
  rw [List.rtakeWhile_concat_pos _ _ _ (by simp [Event.isTick])]
  simp [mergedTables, List.filterMap_append]

theorem currentWindow_concat_tick (es : List Event) (now : Nat) :
    currentWindow (es ++ [Event.Tick now]) = [] := by
  unfold currentWindow
  rw [List.rtakeWhile_concat_neg _ _ _ (by simp [Event.isTick])]
  simp [mergedTables]

/-- The canonical table is the merge of the tables of the current window. -/
theorem flowMap_mainLoop (lib : Lib) (es : List Event) :
    (mainLoop lib mainInit es).flowMap = mergeAll lib ∅ (currentWindow es) := by
  induction es using List.reverseRecOn with
  | nil => simp [mainLoop, mainInit, currentWindow_nil, mergeAll_nil]
  | append_singleton es e ih =>
    rw [mainLoop_concat]
    cases e with
    | Merge r =>
      rw [currentWindow_concat_merge, mergeAll_concat, ← ih]
      rfl
    | Tick now =>
      rw [currentWindow_concat_tick, mergeAll_nil]
      rfl

/-- The canonical table after a run depends on the starting state through its
table only. -/
theorem flowMap_mainLoop_congr (lib : Lib) (es : List Event) (s s' : Coordinator)
    (h : s.flowMap = s'.flowMap) :
    (mainLoop lib s es).flowMap = (mainLoop lib s' es).flowMap := by
  induction es generalizing s s' with
  | nil => exact h
  | cons e es ih =>
    rw [mainLoop_cons, mainLoop_cons]
    apply ih
    cases e with
    | Merge r => simp [mainStep, h]
    | Tick now => simp [mainStep, mainTick]

/-- Nothing merged before a tick is left in the canonical table after it. -/
theorem flowMap_mainLoop_after_tick (lib : Lib) (pre post : List Event) (now : Nat) :
    (mainLoop lib mainInit (pre ++ Event.Tick now :: post)).flowMap =
      (mainLoop lib mainInit post).flowMap := by
  rw [mainLoop_append, mainLoop_cons]
  apply flowMap_mainLoop_congr
  simp [mainStep, mainTick, mainInit]

/-! ## Lemmas on the report -/

theorem flowLine_injective :
    Function.Injective
      (fun e : Sigma (fun _ : FlowKey => FlowStats) => flowLine e.1 e.2) := by
  rintro ⟨⟨a1, a2, a3, a4⟩, ⟨b1, b2⟩⟩ ⟨⟨c1, c2, c3, c4⟩, ⟨d1, d2⟩⟩ h
  simp only [flowLine, FlowLine.mk.injEq] at h
  obtain ⟨h1, h2, h3, h4, h5, h6⟩ := h
  subst h1 h2 h3 h4 h5 h6
  rfl

/-- Each entry of the table is printed exactly once, and nothing else is. -/
theorem count_flowLine (m : FlowMap) (key : FlowKey) (stats : FlowStats) :
    Multiset.count (flowLine key stats) (m.entries.map (fun e => flowLine e.1 e.2)) =
      if m.lookup key = some stats then 1 else 0 := by
  have h1 := Multiset.count_map_eq_count'
    (fun e : Sigma (fun _ : FlowKey => FlowStats) => flowLine e.1 e.2) m.entries
    flowLine_injective ⟨key, stats⟩
  simp only at h1
  rw [h1, Multiset.count_eq_of_nodup m.nodup_entries]
  have h2 : (⟨key, stats⟩ : Sigma (fun _ : FlowKey => FlowStats)) ∈ m.entries ↔
      m.lookup key = some stats := by
    rw [← Finmap.mem_lookup_iff]
    exact Option.mem_def
  by_cases h : m.lookup key = some stats
  · rw [if_pos (h2.mpr h), if_pos h]
  · rw [if_neg (fun hm => h (h2.mp hm)), if_neg h]

theorem card_report_lines (m : FlowMap) :
    Multiset.card (m.entries.map (fun e => flowLine e.1 e.2)) = m.keys.card := by
  rw [Multiset.card_map]
  simp [Finmap.keys, Multiset.keys]

/-! ## Lemmas on the totals of a table -/

/-- The keys of the table a worker emits for two frames that both carry the
two layers. -/
theorem keys_packetWorker_pair (lib : Lib) (p₁ p₂ : Packet) (k₁ k₂ : FlowKey)
    (h₁ : specKey lib p₁ = some k₁) (h₂ : specKey lib p₂ = some k₂) :
    (packetWorker lib [p₁, p₂]).keys = {k₁, k₂} := by
  ext k
  rw [Finmap.mem_keys, mem_packetWorker, framesOf_ne_nil_iff]
  simp only [List.mem_cons, List.mem_singleton, List.not_mem_nil, or_false,
    Finset.mem_insert, Finset.mem_singleton]
  constructor
  · rintro ⟨p, (rfl | rfl), hp⟩
    · rw [h₁] at hp
      exact Or.inl (Option.some.inj hp).symm
    · rw [h₂] at hp
      exact Or.inr (Option.some.inj hp).symm
  · rintro (rfl | rfl)
    · exact ⟨p₁, Or.inl rfl, h₁⟩
    · exact ⟨p₂, Or.inr rfl, h₂⟩

theorem lookup_packetWorker_pair_same (lib : Lib) (p₁ p₂ : Packet) (k : FlowKey)
    (h₁ : specKey lib p₁ = some k) (h₂ : specKey lib p₂ = some k) :
    (packetWorker lib [p₁, p₂]).lookup k =
      some ⟨wrapInt lib.intSize (specPayloadLen p₁ + specPayloadLen p₂), 2⟩ := by
  rw [lookup_packetWorker]
  simp [framesOf, specBytes, specPkts, List.filter_cons, h₁, h₂, wrapInt_two]

theorem lookup_packetWorker_pair_ne (lib : Lib) (p₁ p₂ : Packet) (k₁ k₂ : FlowKey)
    (h₁ : specKey lib p₁ = some k₁) (h₂ : specKey lib p₂ = some k₂) (hne : k₁ ≠ k₂) :
    (packetWorker lib [p₁, p₂]).lookup k₁ =
        some ⟨wrapInt lib.intSize (specPayloadLen p₁), 1⟩ ∧
      (packetWorker lib [p₁, p₂]).lookup k₂ =
        some ⟨wrapInt lib.intSize (specPayloadLen p₂), 1⟩ := by
  have hne2 : k₂ ≠ k₁ := fun e => hne e.symm
  constructor
  · rw [lookup_packetWorker]
    simp [framesOf, specBytes, specPkts, List.filter_cons, h₁, h₂, hne2, wrapInt_one]
  · rw [lookup_packetWorker]
    simp [framesOf, specBytes, specPkts, List.filter_cons, h₁, h₂, hne, wrapInt_one]

/-! ## Lemmas on the streams of the overflow scenarios -/

theorem specPayloadLen_frameA (len : Nat) : specPayloadLen (frameA len) = (len : Int) := by
  simp [specPayloadLen, frameA, tcpFrame]

/-- The table a worker emits for a non-empty stream of bare acknowledgements
of flow A. -/
theorem packetWorker_ackStream (lib : Lib) (h : specKey lib (frameA 0) = some keyA)
    (n : Nat) (hn : 0 < n) :
    packetWorker lib (ackStream n) = oneEntry keyA ⟨0, wrapInt lib.intSize (n : Int)⟩ := by
  have h2 := packetWorker_replicate lib (frameA 0) keyA h n hn
  rw [specPayloadLen_frameA] at h2
  simpa [ackStream, wrapInt_zero] using h2

theorem framesOf_ackStream (lib : Lib) (h : specKey lib (frameA 0) = some keyA) (n : Nat) :
    framesOf lib (ackStream n) keyA = ackStream n :=
  framesOf_replicate_self lib (frameA 0) keyA h n

theorem length_ackStream (n : Nat) : (ackStream n).length = n := by
  simp [ackStream]

/-! ## Main results -/

/-- C1, as stated, fails at the bound of `int`: on a 32-bit platform, merging
the table a worker emits for 2^31-1 frames of flow A into a canonical table
that holds one packet of flow A leaves packets = -2^31, not 1 + (2^31-1). -/
theorem merge_sum_wraps_at_int_bound :
    mainMerge decimalLib32 ∅ (packetWorker decimalLib32 [frameA 0]) = oneEntry keyA ⟨0, 1⟩ ∧
      packetWorker decimalLib32 (ackStream 2147483647) =
        oneEntry keyA ⟨0, 2147483647⟩ ∧
      (mainMerge decimalLib32 (oneEntry keyA ⟨0, 1⟩)
        (oneEntry keyA ⟨0, 2147483647⟩)).lookup keyA =
        some ⟨0, -2147483648⟩ ∧
      (1 : Int) + 2147483647 ≠ -2147483648 :=
  ⟨by decide, (packetWorker_ackStream decimalLib32 (by decide) 2147483647
      (by decide)).trans (by decide),
   by decide, by decide⟩

/-- C1, amended.  Coordinator merge is per-key `int` addition with a zero
base: after the merge branch, a key present in the incoming table `L` holds
the bytes and packets of the canonical table `C` (0 when the key was absent
from `C`) plus those of `L`, each sum reduced to the range of `int` by
wrap-around, hence the exact sum whenever the exact sum lies in that range; a
key not present in `L` keeps the entry, or the absence, it had in `C`. -/
theorem merge_is_keywise_addition (lib : Lib) (C L : FlowMap) (k : FlowKey) :
    ((mainMerge lib C L).lookup k =
      match L.lookup k with
      | some l =>
        some ⟨wrapInt lib.intSize (((C.lookup k).map (fun c => c.Bytes)).getD 0 + l.Bytes),
              wrapInt lib.intSize (((C.lookup k).map (fun c => c.Pkts)).getD 0 + l.Pkts)⟩
      | none => C.lookup k) ∧
    ∀ l : FlowStats, L.lookup k = some l →
      InIntRange lib.intSize (((C.lookup k).map (fun c => c.Bytes)).getD 0 + l.Bytes) →
      InIntRange lib.intSize (((C.lookup k).map (fun c => c.Pkts)).getD 0 + l.Pkts) →
      (mainMerge lib C L).lookup k =
        some ⟨((C.lookup k).map (fun c => c.Bytes)).getD 0 + l.Bytes,
              ((C.lookup k).map (fun c => c.Pkts)).getD 0 + l.Pkts⟩ := by
  have hB : (C.index k).Bytes = ((C.lookup k).map (fun c => c.Bytes)).getD 0 := by
    cases hC : C.lookup k <;> simp [FlowMap.index, hC]
  have hP : (C.index k).Pkts = ((C.lookup k).map (fun c => c.Pkts)).getD 0 := by
    cases hC : C.lookup k <;> simp [FlowMap.index, hC]
  rw [lookup_mainMerge, hB, hP]
  refine ⟨?_, ?_⟩
  · cases hL : L.lookup k <;> rfl
  · intro l hL h1 h2
    rw [hL]
    simp only [intAdd, wrapInt_of_inRange _ _ h1, wrapInt_of_inRange _ _ h2]

/-- Witness of C1: a table holding flows A and B merged into a table holding
flow A only. -/
theorem merge_is_keywise_addition_witness :
    ((oneEntry keyA ⟨12, 2⟩).insert keyB ⟨100, 1⟩).lookup keyA = some ⟨12, 2⟩ ∧
      InIntRange decimalLib.intSize
        ((((oneEntry keyA ⟨60, 3⟩).lookup keyA).map (fun c => c.Bytes)).getD 0 + 12) ∧
      InIntRange decimalLib.intSize
        ((((oneEntry keyA ⟨60, 3⟩).lookup keyA).map (fun c => c.Pkts)).getD 0 + 2) ∧
      (mainMerge decimalLib (oneEntry keyA ⟨60, 3⟩)
        ((oneEntry keyA ⟨12, 2⟩).insert keyB ⟨100, 1⟩)).lookup keyA = some ⟨72, 5⟩ ∧
      (mainMerge decimalLib (oneEntry keyA ⟨60, 3⟩)
        ((oneEntry keyA ⟨12, 2⟩).insert keyB ⟨100, 1⟩)).lookup keyB = some ⟨100, 1⟩ ∧
      (mainMerge decimalLib (oneEntry keyA ⟨60, 3⟩) (oneEntry keyB ⟨100, 1⟩)).lookup keyA =
        some ⟨60, 3⟩ :=
  ⟨by decide, by decide, by decide,
   ((merge_is_keywise_addition decimalLib (oneEntry keyA ⟨60, 3⟩)
      ((oneEntry keyA ⟨12, 2⟩).insert keyB ⟨100, 1⟩) keyA).2 ⟨12, 2⟩
      (by decide) (by decide) (by decide)).trans (by decide),
   (merge_is_keywise_addition decimalLib (oneEntry keyA ⟨60, 3⟩)
      ((oneEntry keyA ⟨12, 2⟩).insert keyB ⟨100, 1⟩) keyB).1.trans (by decide),
   (merge_is_keywise_addition decimalLib (oneEntry keyA ⟨60, 3⟩)
      (oneEntry keyB ⟨100, 1⟩) keyA).1.trans (by decide)⟩

/-- C2, as stated, fails at the bound of `int`: on a 32-bit platform, merging
the tables two workers emit for 2^31-1 frames and for one frame of flow A
leaves packets = -2^31, while the sum of that key's packets over the merged
tables is 2^31. -/
theorem merged_sums_wrap_at_int_bound :
    packetWorker decimalLib32 (ackStream 2147483647) =
        oneEntry keyA ⟨0, 2147483647⟩ ∧
      packetWorker decimalLib32 [frameA 0] = oneEntry keyA ⟨0, 1⟩ ∧
      (mergeAll decimalLib32 ∅
        [oneEntry keyA ⟨0, 2147483647⟩, oneEntry keyA ⟨0, 1⟩]).lookup keyA =
        some ⟨0, -2147483648⟩ ∧
      (0 : Int) + sumPkts [oneEntry keyA ⟨0, 2147483647⟩, oneEntry keyA ⟨0, 1⟩] keyA =
        2147483648 :=
  ⟨(packetWorker_ackStream decimalLib32 (by decide) 2147483647
      (by decide)).trans (by decide),
   by decide, by decide, by decide⟩

/-- C2, amended.  Merge is order-independent: merging a list of local tables
in any permutation yields the same canonical table.  Its keys are those of the
starting table and of the merged tables; a key held by no merged table keeps
the entry or absence of the starting table; a key held by some merged table
has bytes and packets equal to the starting value (0 if absent) plus the sum
of that key's bytes and packets over all the merged tables, reduced to the
range of `int` by wrap-around; and whenever these exact totals lie in the range
of `int`, the counters are the exact totals. -/
theorem merge_order_independent (lib : Lib) (C : FlowMap) (Ls Ls' : List FlowMap)
    (h : Ls'.Perm Ls) :
    mergeAll lib C Ls' = mergeAll lib C Ls ∧
    ∀ k : FlowKey,
      (k ∈ mergeAll lib C Ls' ↔ k ∈ C ∨ ∃ L ∈ Ls, k ∈ L) ∧
      ((∀ L ∈ Ls, k ∉ L) → (mergeAll lib C Ls').lookup k = C.lookup k) ∧
      ((∃ L ∈ Ls, k ∈ L) →
        (mergeAll lib C Ls').index k =
          ⟨wrapInt lib.intSize ((C.index k).Bytes + sumBytes Ls k),
           wrapInt lib.intSize ((C.index k).Pkts + sumPkts Ls k)⟩) ∧
      (InIntRange lib.intSize ((C.index k).Bytes + sumBytes Ls k) →
        InIntRange lib.intSize ((C.index k).Pkts + sumPkts Ls k) →
        (mergeAll lib C Ls').index k =
          ⟨(C.index k).Bytes + sumBytes Ls k, (C.index k).Pkts + sumPkts Ls k⟩) := by
  have heq := mergeAll_perm lib C h
  refine ⟨heq, fun k => ?_⟩
  rw [heq]
  have hidx := index_mergeAll lib C Ls k
  refine ⟨mem_mergeAll lib C Ls k, ?_, ?_, ?_⟩
  · intro hno
    have hex : ¬ ∃ L ∈ Ls, k ∈ L := fun ⟨L, hL, hk⟩ => hno L hL hk
    rw [if_neg hex] at hidx
    rw [lookup_eq_ite_mem, lookup_eq_ite_mem C, hidx]
    have hm : k ∈ mergeAll lib C Ls ↔ k ∈ C := by
      rw [mem_mergeAll]
      exact ⟨fun hk => hk.elim id (fun he => (hex he).elim), Or.inl⟩
    by_cases hc : k ∈ C
    · rw [if_pos (hm.mpr hc), if_pos hc]
    · rw [if_neg (fun h2 => hc (hm.mp h2)), if_neg hc]
  · intro hex
    rw [hidx, if_pos hex]
  · intro h1 h2
    rw [hidx]
    by_cases hex : ∃ L ∈ Ls, k ∈ L
    · rw [if_pos hex, wrapInt_of_inRange _ _ h1, wrapInt_of_inRange _ _ h2]
    · rw [if_neg hex]
      obtain ⟨hb, hp⟩ := sums_eq_zero_of_not_mem Ls k (fun L hL hk => hex ⟨L, hL, hk⟩)
      rw [hb, hp, add_zero, add_zero]

/-- Witness of C2: two tables merged in both orders into a table that already
holds flow A. -/
theorem merge_order_independent_witness :
    [oneEntry keyB ⟨5, 2⟩, oneEntry keyA ⟨10, 1⟩].Perm
        [oneEntry keyA ⟨10, 1⟩, oneEntry keyB ⟨5, 2⟩] ∧
      mergeAll decimalLib (oneEntry keyA ⟨1, 1⟩)
          [oneEntry keyB ⟨5, 2⟩, oneEntry keyA ⟨10, 1⟩] =
        mergeAll decimalLib (oneEntry keyA ⟨1, 1⟩)
          [oneEntry keyA ⟨10, 1⟩, oneEntry keyB ⟨5, 2⟩] ∧
      (mergeAll decimalLib (oneEntry keyA ⟨1, 1⟩)
        [oneEntry keyB ⟨5, 2⟩, oneEntry keyA ⟨10, 1⟩]).index keyA = ⟨11, 2⟩ :=
  ⟨List.Perm.swap _ _ _,
   (merge_order_independent decimalLib (oneEntry keyA ⟨1, 1⟩)
      [oneEntry keyA ⟨10, 1⟩, oneEntry keyB ⟨5, 2⟩]
      [oneEntry keyB ⟨5, 2⟩, oneEntry keyA ⟨10, 1⟩] (List.Perm.swap _ _ _)).1,
   (((merge_order_independent decimalLib (oneEntry keyA ⟨1, 1⟩)
      [oneEntry keyA ⟨10, 1⟩, oneEntry keyB ⟨5, 2⟩]
      [oneEntry keyB ⟨5, 2⟩, oneEntry keyA ⟨10, 1⟩] (List.Perm.swap _ _ _)).2 keyA).2.2.2
      (by decide) (by decide)).trans (by decide)⟩

/-- C3, as stated, fails at the bound of `int`: on a 32-bit platform the
table a worker emits for a stream of 2^31 frames of flow A holds packets =
-2^31, while 2^31 frames of the stream carry both layers and that key. -/
theorem worker_count_wraps_at_int_bound :
    (framesOf decimalLib32 (ackStream 2147483648) keyA).length =
        2147483648 ∧
      (packetWorker decimalLib32 (ackStream 2147483648)).lookup keyA =
        some ⟨0, -2147483648⟩ := by
  refine ⟨?_, ?_⟩
  · rw [framesOf_ackStream decimalLib32 (by decide), length_ackStream]
  · rw [packetWorker_ackStream decimalLib32 (by decide) 2147483648 (by decide),
      lookup_oneEntry_self]
    decide

/-- C3, amended.  Worker aggregation equals the reference fold up to the
width of `int`: in the table `packetWorker` emits, a key `k` is absent when no
frame of the stream carries both layers with key `k`; otherwise its packets
are the number of those frames and its bytes the sum of their TCP payload
lengths, each reduced to the range of `int` by wrap-around, hence exactly that
number and that sum whenever both are below the bound of `int`. -/
theorem worker_equals_reference_fold (lib : Lib) (stream : List Packet) (k : FlowKey) :
    ((packetWorker lib stream).lookup k =
      if framesOf lib stream k = [] then none
      else some ⟨wrapInt lib.intSize ((framesOf lib stream k).map specPayloadLen).sum,
                 wrapInt lib.intSize ((framesOf lib stream k).length : Int)⟩) ∧
    (((framesOf lib stream k).map specPayloadLen).sum < (lib.intSize.bound : Int) →
      ((framesOf lib stream k).length : Int) < (lib.intSize.bound : Int) →
      (packetWorker lib stream).lookup k =
        if framesOf lib stream k = [] then none
        else some ⟨((framesOf lib stream k).map specPayloadLen).sum,
                   ((framesOf lib stream k).length : Int)⟩) := by
  have hl : (packetWorker lib stream).lookup k =
      if framesOf lib stream k = [] then none
      else some ⟨wrapInt lib.intSize ((framesOf lib stream k).map specPayloadLen).sum,
                 wrapInt lib.intSize ((framesOf lib stream k).length : Int)⟩ :=
    lookup_packetWorker lib stream k
  refine ⟨hl, fun h1 h2 => ?_⟩
  have n1 : 0 ≤ ((framesOf lib stream k).map specPayloadLen).sum :=
    specBytes_nonneg lib stream k
  have n2 : 0 ≤ ((framesOf lib stream k).length : Int) := specPkts_nonneg lib stream k
  rw [hl, wrapInt_of_nonneg_of_lt _ _ n1 h1, wrapInt_of_nonneg_of_lt _ _ n2 h2]

/-- Witness of C3, the scenario "single flow": three frames of key
`{1.2.3.4, 1111, 5.6.7.8, 80}` with payload lengths 10, 20, 30 give the single
entry bytes=60, packets=3. -/
theorem worker_single_flow_witness :
    ((framesOf decimalLib singleFlow keyA).map specPayloadLen).sum <
        (decimalLib.intSize.bound : Int) ∧
      ((framesOf decimalLib singleFlow keyA).length : Int) <
        (decimalLib.intSize.bound : Int) ∧
      (packetWorker decimalLib singleFlow).lookup keyA = some ⟨60, 3⟩ ∧
      packetWorker decimalLib singleFlow = oneEntry keyA ⟨60, 3⟩ :=
  ⟨by decide, by decide,
   ((worker_equals_reference_fold decimalLib singleFlow keyA).2
      (by decide) (by decide)).trans (by decide),
   by decide⟩

/-- C4. No double counting: however the frames of a stream are split among
`n` workers (each frame to one worker, stream order kept within a worker),
merging the `n` emitted tables, in any order, into an empty canonical table
gives the table of a single worker run over the whole stream, so every key has
the same bytes and packets. -/
theorem no_double_counting (lib : Lib) (n : Nat) (t : Tagged) (h : ∀ x ∈ t, x.1 < n)
    (Ls : List FlowMap) (hperm : Ls.Perm (workerTables lib n t)) :
    mergeAll lib ∅ Ls = packetWorker lib t.stream ∧
    ∀ k : FlowKey,
      (mergeAll lib ∅ Ls).lookup k = (packetWorker lib t.stream).lookup k ∧
      (mergeAll lib ∅ Ls).index k = (packetWorker lib t.stream).index k := by
  have heq : mergeAll lib ∅ Ls = packetWorker lib t.stream := by
    rw [mergeAll_perm lib ∅ hperm]
    exact mergeAll_workerTables lib n t h
  refine ⟨heq, fun k => ?_⟩
  rw [heq]
  exact ⟨rfl, rfl⟩

/-- Witness of C4: four frames split between two workers, the second
worker's table merged first. -/
theorem no_double_counting_witness :
    (∀ x ∈ [(0, frameA 5), (1, frameB 100), (1, frameA 7), (0, frameA 1)], x.1 < 2) ∧
      [packetWorker decimalLib [frameB 100, frameA 7],
        packetWorker decimalLib [frameA 5, frameA 1]].Perm
        (workerTables decimalLib 2
          [(0, frameA 5), (1, frameB 100), (1, frameA 7), (0, frameA 1)]) ∧
      mergeAll decimalLib ∅ [packetWorker decimalLib [frameB 100, frameA 7],
          packetWorker decimalLib [frameA 5, frameA 1]] =
        packetWorker decimalLib [frameA 5, frameB 100, frameA 7, frameA 1] :=
  ⟨by decide, List.Perm.swap _ _ _,
   (no_double_counting decimalLib 2
      [(0, frameA 5), (1, frameB 100), (1, frameA 7), (0, frameA 1)] (by decide)
      [packetWorker decimalLib [frameB 100, frameA 7],
        packetWorker decimalLib [frameA 5, frameA 1]]
      (List.Perm.swap _ _ _)).1⟩

/-- C5. Report-and-reset: the ticker branch prints one report whose flow
lines are exactly the entries of the canonical table as it stood before the
tick, one line per key with that key's bytes and packets, and leaves the
canonical table empty, so that every key then reads zero bytes and zero
packets. -/
theorem tick_reports_and_resets (now : Nat) (s : Coordinator) :
    (∃ r : Report,
      (mainTick now s).out = s.out ++ [r] ∧ r.now = now ∧
      (∀ key stats, Multiset.count (flowLine key stats) r.lines =
        if s.flowMap.lookup key = some stats then 1 else 0) ∧
      (∀ l ∈ r.lines, ∃ key stats, l = flowLine key stats ∧
        s.flowMap.lookup key = some stats) ∧
      Multiset.card r.lines = s.flowMap.keys.card) ∧
    (mainTick now s).flowMap = ∅ ∧
    ∀ k : FlowKey,
      (mainTick now s).flowMap.lookup k = none ∧
      (mainTick now s).flowMap.index k = ⟨0, 0⟩ := by
  refine ⟨⟨⟨now, s.flowMap.entries.map
      (fun e : Sigma (fun _ : FlowKey => FlowStats) => flowLine e.1 e.2)⟩, rfl, rfl,
    fun key stats => count_flowLine s.flowMap key stats, ?_,
    card_report_lines s.flowMap⟩, rfl, fun k => ⟨Finmap.lookup_empty k, index_empty k⟩⟩
  intro l hl
  obtain ⟨⟨key, stats⟩, he, rfl⟩ := Multiset.mem_map.mp hl
  refine ⟨key, stats, rfl, ?_⟩
  exact Option.mem_def.mp (Finmap.mem_lookup_iff.mpr he)

/-- Witness of C5: a tick on a table holding flow A prints the line of flow A
and leaves the empty table. -/
theorem tick_reports_and_resets_witness :
    mainTick 10 ⟨oneEntry keyA ⟨60, 3⟩, []⟩ =
        ⟨∅, [⟨10, {flowLine keyA ⟨60, 3⟩}⟩]⟩ ∧
      (mainTick 10 ⟨oneEntry keyA ⟨60, 3⟩, []⟩).flowMap = ∅ :=
  ⟨by decide, (tick_reports_and_resets 10 ⟨oneEntry keyA ⟨60, 3⟩, []⟩).2.1⟩

/-- C6, as stated, fails at the bound of `int`: on a 32-bit platform, after a
tick and the merges of the tables two workers emit for 2^31-1 frames and for
one frame of flow A, the canonical table holds packets = -2^31 for flow A,
while the sum of that key's packets over the tables merged since the tick is
2^31. -/
theorem window_sums_wrap_at_int_bound :
    packetWorker decimalLib32 (ackStream 2147483647) =
        oneEntry keyA ⟨0, 2147483647⟩ ∧
      packetWorker decimalLib32 [frameA 0] = oneEntry keyA ⟨0, 1⟩ ∧
      (mainLoop decimalLib32 mainInit
        [Event.Tick 10, Event.Merge (oneEntry keyA ⟨0, 2147483647⟩),
          Event.Merge (oneEntry keyA ⟨0, 1⟩)]).flowMap.lookup keyA =
        some ⟨0, -2147483648⟩ ∧
      sumPkts (currentWindow
        [Event.Tick 10, Event.Merge (oneEntry keyA ⟨0, 2147483647⟩),
          Event.Merge (oneEntry keyA ⟨0, 1⟩)]) keyA = 2147483648 :=
  ⟨(packetWorker_ackStream decimalLib32 (by decide) 2147483647
      (by decide)).trans (by decide),
   by decide, by decide, by decide⟩

/-- C6, amended.  Canonical-table window invariant: after any sequence of
`Merge` and `Tick` events from the empty table, the canonical table is the
merge of the local tables received since the most recent tick (since the start
when there was none): its keys are theirs, each key's bytes and packets are
the sums of that key's bytes and packets over exactly those tables, reduced to
the range of `int` by wrap-around, hence the exact sums whenever these lie in
the range of `int`; and whatever was merged before a tick has no effect on the
table after it. -/
theorem window_invariant (lib : Lib) (events : List Event) :
    (mainLoop lib mainInit events).flowMap = mergeAll lib ∅ (currentWindow events) ∧
    (∀ k : FlowKey,
      (k ∈ (mainLoop lib mainInit events).flowMap ↔ ∃ L ∈ currentWindow events, k ∈ L) ∧
      (mainLoop lib mainInit events).flowMap.index k =
        ⟨wrapInt lib.intSize (sumBytes (currentWindow events) k),
         wrapInt lib.intSize (sumPkts (currentWindow events) k)⟩ ∧
      (InIntRange lib.intSize (sumBytes (currentWindow events) k) →
        InIntRange lib.intSize (sumPkts (currentWindow events) k) →
        (mainLoop lib mainInit events).flowMap.index k =
          ⟨sumBytes (currentWindow events) k, sumPkts (currentWindow events) k⟩)) ∧
    ∀ (pre post : List Event) (now : Nat), events = pre ++ Event.Tick now :: post →
      (mainLoop lib mainInit events).flowMap = (mainLoop lib mainInit post).flowMap := by
  have hidx : ∀ k : FlowKey, (mainLoop lib mainInit events).flowMap.index k =
      ⟨wrapInt lib.intSize (sumBytes (currentWindow events) k),
       wrapInt lib.intSize (sumPkts (currentWindow events) k)⟩ := by
    intro k
    rw [flowMap_mainLoop, index_mergeAll, index_empty]
    by_cases hex : ∃ L ∈ currentWindow events, k ∈ L
    · rw [if_pos hex, zero_add, zero_add]
    · rw [if_neg hex]
      obtain ⟨hb, hp⟩ := sums_eq_zero_of_not_mem (currentWindow events) k
        (fun L hL hk => hex ⟨L, hL, hk⟩)
      rw [hb, hp, wrapInt_zero]
  refine ⟨flowMap_mainLoop lib events, fun k => ⟨?_, hidx k, ?_⟩, ?_⟩
  · rw [flowMap_mainLoop, mem_mergeAll]
    simp [Finmap.not_mem_empty]
  · intro h1 h2
    rw [hidx k, wrapInt_of_inRange _ _ h1, wrapInt_of_inRange _ _ h2]
  · intro pre post now he
    rw [he]
    exact flowMap_mainLoop_after_tick lib pre post now

/-- Witness of C6, the scenario "window boundary": what was merged before the
tick is reported by it and is absent from the next window. -/
theorem window_boundary_witness :
    (mainLoop decimalLib mainInit [Event.Merge (oneEntry keyA ⟨60, 3⟩), Event.Tick 10,
        Event.Merge (oneEntry keyA ⟨7, 1⟩)]).flowMap =
      (mainLoop decimalLib mainInit [Event.Merge (oneEntry keyA ⟨7, 1⟩)]).flowMap ∧
    (mainLoop decimalLib mainInit [Event.Merge (oneEntry keyA ⟨60, 3⟩), Event.Tick 10,
        Event.Merge (oneEntry keyA ⟨7, 1⟩)]).flowMap.index keyA = ⟨7, 1⟩ :=
  ⟨(window_invariant decimalLib [Event.Merge (oneEntry keyA ⟨60, 3⟩), Event.Tick 10,
      Event.Merge (oneEntry keyA ⟨7, 1⟩)]).2.2
      [Event.Merge (oneEntry keyA ⟨60, 3⟩)] [Event.Merge (oneEntry keyA ⟨7, 1⟩)] 10 rfl,
   (((window_invariant decimalLib [Event.Merge (oneEntry keyA ⟨60, 3⟩), Event.Tick 10,
      Event.Merge (oneEntry keyA ⟨7, 1⟩)]).2.1 keyA).2.2
      (by decide) (by decide)).trans (by decide)⟩

/-- C7. A decode miss affects nothing: a frame that lacks the IPv4 layer or
the TCP layer leaves any local table exactly as it was, and the worker goes on
with the following frames as if the frame had not been in the stream. -/
theorem decode_miss_changes_nothing (lib : Lib) (T : FlowMap) (p : Packet)
    (h : p.LayerIPv4 = none ∨ p.LayerTCP = none) :
    packetWorkerStep lib T p = T ∧
    ∀ pre post : List Packet,
      packetWorkerFrom lib T (pre ++ p :: post) = packetWorkerFrom lib T (pre ++ post) := by
  have hk : specKey lib p = none := (specKey_eq_none_iff lib p).mpr h
  refine ⟨packetWorkerStep_of_none lib T p hk, fun pre post => ?_⟩
  rw [packetWorkerFrom_append, packetWorkerFrom_append, packetWorkerFrom_cons,
    packetWorkerStep_of_none lib _ p hk]

/-- Witness of C7, the scenario "mixed traffic": two frames of flow A
(payloads 5, 7), one frame of flow B (payload 100) and one non-TCP frame give
exactly two entries, A with bytes=12, packets=2 and B with bytes=100,
packets=1. -/
theorem mixed_traffic_witness :
    ((nonTcpFrame [9, 9, 9, 9] [1, 2, 3, 4]).LayerIPv4 = none ∨
        (nonTcpFrame [9, 9, 9, 9] [1, 2, 3, 4]).LayerTCP = none) ∧
      packetWorker decimalLib mixedTraffic =
        packetWorker decimalLib [frameA 5, frameB 100, frameA 7] ∧
      packetWorker decimalLib mixedTraffic =
        (oneEntry keyA ⟨12, 2⟩).insert keyB ⟨100, 1⟩ ∧
      (packetWorker decimalLib mixedTraffic).keys.card = 2 :=
  ⟨Or.inr rfl,
   (decode_miss_changes_nothing decimalLib ∅ (nonTcpFrame [9, 9, 9, 9] [1, 2, 3, 4])
      (Or.inr rfl)).2 [frameA 5] [frameB 100, frameA 7],
   by decide, by decide⟩

/-- C8. Flow identity is the exact 4-tuple and direction is not normalised.
A frame with an IPv4 and a TCP layer is accumulated into the entry of the key
made of its source address, source port, destination address and destination
port.  Two such frames have the same key if and only if the four fields, as
rendered into the key, are all equal (if and only if the fields themselves are
equal, when the renderings are injective); the table of the two-frame stream
has a single entry exactly in that case, holding both packets; otherwise it
has two entries with packets=1 each, which a merge adds to two distinct
entries of the canonical table.  A frame A->B and a frame B->A whose (source
address, source port) differs from (destination address, destination port) have
distinct keys.  Byte and packet values are given as the program computes them,
in `int` arithmetic. -/
theorem flow_identity_is_exact_four_tuple (lib : Lib) (ip₁ ip₂ : IPv4) (tcp₁ tcp₂ : TCP)
    (T C : FlowMap) :
    packetWorkerStep lib T ⟨some ip₁, some tcp₁⟩ =
        T.insert (flowKey lib ip₁ tcp₁)
          ⟨intAdd lib.intSize (T.index (flowKey lib ip₁ tcp₁)).Bytes
              (tcp₁.Payload.length : Int),
           intAdd lib.intSize (T.index (flowKey lib ip₁ tcp₁)).Pkts 1⟩ ∧
    (flowKey lib ip₁ tcp₁ = flowKey lib ip₂ tcp₂ ↔
      lib.ipString ip₁.SrcIP = lib.ipString ip₂.SrcIP ∧
      lib.portString tcp₁.SrcPort = lib.portString tcp₂.SrcPort ∧
      lib.ipString ip₁.DstIP = lib.ipString ip₂.DstIP ∧
      lib.portString tcp₁.DstPort = lib.portString tcp₂.DstPort) ∧
    (Function.Injective lib.ipString → Function.Injective lib.portString →
      (flowKey lib ip₁ tcp₁ = flowKey lib ip₂ tcp₂ ↔
        ip₁.SrcIP = ip₂.SrcIP ∧ tcp₁.SrcPort = tcp₂.SrcPort ∧
        ip₁.DstIP = ip₂.DstIP ∧ tcp₁.DstPort = tcp₂.DstPort)) ∧
    ((packetWorker lib [⟨some ip₁, some tcp₁⟩, ⟨some ip₂, some tcp₂⟩]).keys.card = 1 ↔
      flowKey lib ip₁ tcp₁ = flowKey lib ip₂ tcp₂) ∧
    (flowKey lib ip₁ tcp₁ = flowKey lib ip₂ tcp₂ →
      (packetWorker lib [⟨some ip₁, some tcp₁⟩, ⟨some ip₂, some tcp₂⟩]).lookup
          (flowKey lib ip₁ tcp₁) =
        some ⟨wrapInt lib.intSize
                ((tcp₁.Payload.length : Int) + (tcp₂.Payload.length : Int)), 2⟩) ∧
    (flowKey lib ip₁ tcp₁ ≠ flowKey lib ip₂ tcp₂ →
      (packetWorker lib [⟨some ip₁, some tcp₁⟩, ⟨some ip₂, some tcp₂⟩]).keys.card = 2 ∧
      (packetWorker lib [⟨some ip₁, some tcp₁⟩, ⟨some ip₂, some tcp₂⟩]).lookup
          (flowKey lib ip₁ tcp₁) =
        some ⟨wrapInt lib.intSize (tcp₁.Payload.length : Int), 1⟩ ∧
      (packetWorker lib [⟨some ip₁, some tcp₁⟩, ⟨some ip₂, some tcp₂⟩]).lookup
          (flowKey lib ip₂ tcp₂) =
        some ⟨wrapInt lib.intSize (tcp₂.Payload.length : Int), 1⟩ ∧
      (mainMerge lib C
          (packetWorker lib [⟨some ip₁, some tcp₁⟩, ⟨some ip₂, some tcp₂⟩])).lookup
          (flowKey lib ip₁ tcp₁) =
        some ⟨wrapInt lib.intSize
                ((C.index (flowKey lib ip₁ tcp₁)).Bytes + (tcp₁.Payload.length : Int)),
              wrapInt lib.intSize ((C.index (flowKey lib ip₁ tcp₁)).Pkts + 1)⟩ ∧
      (mainMerge lib C
          (packetWorker lib [⟨some ip₁, some tcp₁⟩, ⟨some ip₂, some tcp₂⟩])).lookup
          (flowKey lib ip₂ tcp₂) =
        some ⟨wrapInt lib.intSize
                ((C.index (flowKey lib ip₂ tcp₂)).Bytes + (tcp₂.Payload.length : Int)),
              wrapInt lib.intSize ((C.index (flowKey lib ip₂ tcp₂)).Pkts + 1)⟩) ∧
    (ip₂.SrcIP = ip₁.DstIP → ip₂.DstIP = ip₁.SrcIP →
      tcp₂.SrcPort = tcp₁.DstPort → tcp₂.DstPort = tcp₁.SrcPort →
      ¬ (lib.ipString ip₁.SrcIP = lib.ipString ip₁.DstIP ∧
          lib.portString tcp₁.SrcPort = lib.portString tcp₁.DstPort) →
      flowKey lib ip₁ tcp₁ ≠ flowKey lib ip₂ tcp₂) := by
  have h₁ : specKey lib ⟨some ip₁, some tcp₁⟩ = some (flowKey lib ip₁ tcp₁) := rfl
  have h₂ : specKey lib ⟨some ip₂, some tcp₂⟩ = some (flowKey lib ip₂ tcp₂) := rfl
  have hkeys := keys_packetWorker_pair lib _ _ _ _ h₁ h₂
  have hiff : flowKey lib ip₁ tcp₁ = flowKey lib ip₂ tcp₂ ↔
      lib.ipString ip₁.SrcIP = lib.ipString ip₂.SrcIP ∧
      lib.portString tcp₁.SrcPort = lib.portString tcp₂.SrcPort ∧
      lib.ipString ip₁.DstIP = lib.ipString ip₂.DstIP ∧
      lib.portString tcp₁.DstPort = lib.portString tcp₂.DstPort := by
    simp only [flowKey, FlowKey.mk.injEq]
  have hdiff : flowKey lib ip₁ tcp₁ ≠ flowKey lib ip₂ tcp₂ →
      (packetWorker lib [⟨some ip₁, some tcp₁⟩, ⟨some ip₂, some tcp₂⟩]).keys.card = 2 := by
    intro hne
    rw [hkeys, Finset.card_pair hne]
  refine ⟨rfl, hiff, ?_, ⟨?_, ?_⟩, ?_, ?_, ?_⟩
  · intro hip hport
    rw [hiff, hip.eq_iff, hip.eq_iff, hport.eq_iff, hport.eq_iff]
  · intro hcard
    by_contra hne
    rw [hdiff hne] at hcard
    omega
  · intro heq
    rw [hkeys, heq]
    simp
  · intro heq
    rw [← heq] at h₂
    exact lookup_packetWorker_pair_same lib _ _ _ h₁ h₂
  · intro hne
    obtain ⟨hl₁, hl₂⟩ := lookup_packetWorker_pair_ne lib _ _ _ _ h₁ h₂ hne
    refine ⟨hdiff hne, hl₁, hl₂, ?_, ?_⟩
    · rw [lookup_mainMerge, hl₁]
      simp only [intAdd, wrapInt_add_wrapInt]
      rfl
    · rw [lookup_mainMerge, hl₂]
      simp only [intAdd, wrapInt_add_wrapInt]
      rfl
  · intro e1 _ e3 _ hsd heq
    obtain ⟨a, b, _, _⟩ := hiff.mp heq
    rw [e1] at a
    rw [e3] at b
    exact hsd ⟨a, b⟩

/-- Witness of C8: a frame of flow A and a frame of the reverse direction are
kept in two entries with packets=1 each, by the worker and by a merge into
the empty canonical table. -/
theorem direction_not_normalised_witness :
    keyA ≠ keyB ∧
      (packetWorker decimalLib [frameA 40, frameB 9]).keys.card = 2 ∧
      (packetWorker decimalLib [frameA 40, frameB 9]).lookup keyA = some ⟨40, 1⟩ ∧
      (packetWorker decimalLib [frameA 40, frameB 9]).lookup keyB = some ⟨9, 1⟩ ∧
      (mainMerge decimalLib ∅ (packetWorker decimalLib [frameA 40, frameB 9])).lookup keyA =
        some ⟨40, 1⟩ ∧
      (mainMerge decimalLib ∅ (packetWorker decimalLib [frameA 40, frameB 9])).lookup keyB =
        some ⟨9, 1⟩ :=
  ⟨(flow_identity_is_exact_four_tuple decimalLib ⟨[1, 2, 3, 4], [5, 6, 7, 8]⟩
      ⟨[5, 6, 7, 8], [1, 2, 3, 4]⟩ ⟨1111, 80, List.replicate 40 0⟩
      ⟨80, 1111, List.replicate 9 0⟩ ∅ ∅).2.2.2.2.2.2 rfl rfl rfl rfl (by decide),
   ((flow_identity_is_exact_four_tuple decimalLib ⟨[1, 2, 3, 4], [5, 6, 7, 8]⟩
      ⟨[5, 6, 7, 8], [1, 2, 3, 4]⟩ ⟨1111, 80, List.replicate 40 0⟩
      ⟨80, 1111, List.replicate 9 0⟩ ∅ ∅).2.2.2.2.2.1 (by decide)).1,
   by decide, by decide, by decide, by decide⟩

end FlowAgg
